import Mathlib

/-!
Shallow embedding of the out-of-order batch materialization and ordered-flush
engine of `src/execution/operator/persistent/physical_batch_copy_to_file.cpp`
(`PhysicalBatchCopyToFile` and its global/local sink states).

Modelling conventions:
* A row is abstracted as a `Nat` payload; a `ColumnDataCollection` is the list
  of its chunks, each chunk a list of rows of length at most
  `STANDARD_VECTOR_SIZE` (the DuckDB vector width, 2048).
* The two `std::map<idx_t, ...>` members (`raw_batches`, `batch_data`) are
  sorted association lists; `mapInsert` mirrors `std::map::insert` (no
  overwrite, reports whether insertion happened) and `mapSet` mirrors
  `operator[]` assignment (insert-or-overwrite).
* The external collaborators `prepare_batch` / `flush_batch` are modelled by
  identity on row content: the prepared form of a collection is its row list,
  and a flush appends that row list to the `flushed` event log of the global
  state.  `C++` exceptions (`InternalException` on duplicate batch indices) and
  undefined behaviour (the null dereference of `current_collection`) are
  modelled with `Except String`.
* The execution model is sequential: each theorem talks about one
  linearization of the operator's calls.  Locks are therefore not modelled;
  the advisory `active_flush` flag, which survives across calls, is.
-/

namespace BatchCopy

/-- DuckDB's vector width: the maximum number of rows in one chunk. -/
def STANDARD_VECTOR_SIZE : Nat := 2048

/-- A row of data, abstracted to its payload. -/
abbrev Row := Nat

/-- Embedding of `ColumnDataCollection`: an ordered list of chunks. -/
structure Coll where
  chunks : List (List Row)
deriving DecidableEq

/-- A freshly initialized, empty collection (`make_uniq<ColumnDataCollection>`). -/
def emptyColl : Coll := ⟨[]⟩

/-- `ColumnDataCollection::Count`: the total number of rows. -/
def Coll.count (c : Coll) : Nat := (c.chunks.map List.length).sum

/-- The rows of a collection in order (concatenation of its chunks). -/
def Coll.rows (c : Coll) : List Row := c.chunks.flatten

/-- `ColumnDataCollection::Append` of one chunk (row content and count are
what matter to the claims; chunk boundaries of the appended data are kept). -/
def Coll.appendChunk (c : Coll) (chunk : List Row) : Coll := ⟨c.chunks ++ [chunk]⟩

/-- Well-formedness of a collection: every chunk fits in one vector. -/
def WFColl (c : Coll) : Prop := ∀ ch ∈ c.chunks, ch.length ≤ STANDARD_VECTOR_SIZE

/-- Concatenation of the rows of a list of collections. -/
def joinedRows (cs : List Coll) : List Row := (cs.map Coll.rows).flatten

/-- Embedding of `std::map<idx_t, A>::insert`: returns the resulting map and
whether the insertion took place (`false` and an unchanged map when the key is
already present).  The association list is kept sorted by key, matching the
map's iteration order. -/
def mapInsert {A : Type} (m : List (Nat × A)) (k : Nat) (v : A) :
    List (Nat × A) × Bool :=
  match m with
  | [] => ([(k, v)], true)
  | (k', v') :: rest =>
    if k < k' then ((k, v) :: (k', v') :: rest, true)
    else if k = k' then ((k', v') :: rest, false)
    else
      let r := mapInsert rest k v
      ((k', v') :: r.1, r.2)

/-- Embedding of `std::map<idx_t, A>::operator[]` followed by assignment:
insert-or-overwrite, keeping the list sorted by key. -/
def mapSet {A : Type} (m : List (Nat × A)) (k : Nat) (v : A) : List (Nat × A) :=
  match m with
  | [] => [(k, v)]
  | (k', v') :: rest =>
    if k < k' then (k, v) :: (k', v') :: rest
    else if k = k' then (k, v) :: rest
    else (k', v') :: mapSet rest k v

/-- Key lookup in the association-list map. -/
def mapLookup {A : Type} (m : List (Nat × A)) (k : Nat) : Option A :=
  match m with
  | [] => none
  | (k', v') :: rest => if k = k' then some v' else mapLookup rest k

/-- Keys strictly increase along the list, i.e. the list is a valid snapshot
of a `std::map` in iteration order. -/
def SortedKeys {A : Type} (m : List (Nat × A)) : Prop :=
  List.Pairwise (fun p q => p.1 < q.1) m

/-- External collaborator `prepare_batch`: converts a collection into its
writer-specific prepared form.  Only row content is observable to this core,
so the prepared form is modelled as the collection's row list. -/
def prepare_batch (c : Coll) : List Row := c.rows

/-- Embedding of `BatchCopyToGlobalState`.  `flushed` is the event log of the
external collaborator `flush_batch`: the sequence of row lists handed to the
writer, in call order. -/
structure GState where
  rows_copied : Nat
  batch_size : Nat
  raw_batches : List (Nat × Coll)
  batch_data : List (Nat × Option (List Row))
  active_flush : Bool
  flushed : List (List Row)
deriving DecidableEq

/-- Fresh global sink state with the given desired batch size
(`GetGlobalSinkState`: zero when the function supplies no
`desired_batch_size`). -/
def initGState (batchSize : Nat) : GState :=
  { rows_copied := 0, batch_size := batchSize, raw_batches := [],
    batch_data := [], active_flush := false, flushed := [] }

/-- Embedding of `BatchCopyToLocalState`.  `collection` is `none` exactly when
the `unique_ptr` is null (before the first `Sink` call after construction). -/
structure LState where
  collection : Option Coll
  rows_copied : Nat
  batch_index : Nat
deriving DecidableEq

/-- Fresh local sink state (`GetLocalSinkState`). -/
def initLState : LState := { collection := none, rows_copied := 0, batch_index := 0 }

/-- Embedding of `PhysicalBatchCopyToFile::Sink`: lazily initialize the local
collection, count the chunk's rows, append the chunk. -/
def Sink (l : LState) (chunk : List Row) : LState :=
  let coll := match l.collection with
    | none => emptyColl
    | some c => c
  { l with collection := some (coll.appendChunk chunk),
           rows_copied := l.rows_copied + chunk.length }

/-- Embedding of `PhysicalBatchCopyToFile::Combine`: fold one local state's
row count into the global counter. -/
def Combine (g : GState) (l : LState) : GState :=
  { g with rows_copied := g.rows_copied + l.rows_copied }

/-- Embedding of `PhysicalBatchCopyToFile::AddBatchData`: insert the finished
collection into `raw_batches`; a duplicate batch index throws
`InternalException` and (as `std::map::insert` does not overwrite) leaves the
stored entry unchanged. -/
def AddBatchData (g : GState) (batch_index : Nat) (collection : Coll) :
    Except String GState :=
  let entry := mapInsert g.raw_batches batch_index collection
  if entry.2 then .ok { g with raw_batches := entry.1 }
  else .error "Duplicate batch index encountered in PhysicalBatchCopyToFile"

/-- Embedding of `CorrectSizeForBatch`: the collection size is within one
vector width of the desired size. -/
def CorrectSizeForBatch (collection_size desired_size : Nat) : Bool :=
  decide (((collection_size : Int) - (desired_size : Int)).natAbs < STANDARD_VECTOR_SIZE)

/-- Embedding of `PhysicalBatchCopyToFile::PrepareBatchData`: prepare the
collection, then insert the prepared data into `batch_data`; a duplicate batch
index throws and leaves the stored entry unchanged. -/
def PrepareBatchData (g : GState) (batch_index : Nat) (collection : Coll) :
    Except String GState :=
  let batchData := prepare_batch collection
  let entry := mapInsert g.batch_data batch_index (some batchData)
  if entry.2 then .ok { g with batch_data := entry.1 }
  else .error "Duplicate batch index encountered in PhysicalBatchCopyToFile"

/-- The candidate-row scan of `RepartitionBatches` (lines 135-142): walk the
raw map in iteration order, stop at the first entry at or past `min_index`,
sum the counts of the entries seen. -/
def candidateRows (raw : List (Nat × Coll)) (min_index : Nat) : Nat :=
  ((raw.takeWhile (fun p => decide (p.1 < min_index))).map (fun p => p.2.count)).sum

/-- The inner chunk loop of `RepartitionBatches` (lines 188-199): append the
source chunks one by one into the current accumulator, emitting the
accumulator into the result and starting a fresh one every time it reaches the
batch size. -/
def chunkLoop (B : Nat) (cur : Coll) (result : List Coll) :
    List (List Row) → Coll × List Coll
  | [] => (cur, result)
  | chunk :: rest =>
    if (cur.appendChunk chunk).count < B then chunkLoop B (cur.appendChunk chunk) result rest
    else chunkLoop B emptyColl (result ++ [cur.appendChunk chunk]) rest

/-- One iteration of the outer loop of `RepartitionBatches` (lines 163-200)
on a single gathered collection: when no accumulator exists, either route the
collection directly to the result (correct size), seed the accumulator with it
(too small), or start an empty accumulator and append the oversized collection
chunk-by-chunk; when an accumulator exists, append chunk-by-chunk. -/
def processColl (B : Nat) (cur : Option Coll) (result : List Coll) (coll : Coll) :
    Option Coll × List Coll :=
  match cur with
  | none =>
    if CorrectSizeForBatch coll.count B then (none, result ++ [coll])
    else if coll.count < B then (some coll, result)
    else
      (some (chunkLoop B emptyColl result coll.chunks).1,
       (chunkLoop B emptyColl result coll.chunks).2)
  | some c =>
    (some (chunkLoop B c result coll.chunks).1,
     (chunkLoop B c result coll.chunks).2)

/-- The full repartition loop over the gathered collections. -/
def repartitionLoop (B : Nat) (colls : List Coll) : Option Coll × List Coll :=
  colls.foldl (fun acc coll => processColl B acc.1 acc.2 coll) (none, [])

/-- Outcome of a repartition pass: the collections emitted for preparation and
flushing, and the optional leftover re-inserted into the raw map. -/
structure RepartOutcome where
  emitted : List Coll
  reinsert : Option (Nat × Coll)
deriving DecidableEq

/-- The post-loop logic of `RepartitionBatches` (lines 201-210) on the drained
entries.  Returns `none` on the two undefined behaviours of the source: the
dereference of `current_collection` at line 201 when it was never allocated
(every gathered collection took the direct route), and the read of the
uninitialized `max_batch_index` when nothing was gathered. -/
def repartitionCore (B : Nat) (final : Bool) (gathered : List (Nat × Coll)) :
    Option RepartOutcome :=
  match repartitionLoop B (gathered.map Prod.snd) with
  | (none, _) => none
  | (some c, result) =>
    if 0 < c.count then
      if final = true ∨ CorrectSizeForBatch c.count B = true then
        some { emitted := result ++ [c], reinsert := none }
      else
        match (gathered.map Prod.fst).getLast? with
        | some max_batch_index => some { emitted := result, reinsert := some (max_batch_index, c) }
        | none => none
    else some { emitted := result, reinsert := none }

/-- Embedding of `PhysicalBatchCopyToFile::RepartitionBatches`: return
unchanged when the raw map is empty or (non-final) when the candidate rows
below `min_index` are under the batch size; otherwise drain all raw entries
below `min_index`, repartition them, re-insert the leftover (if any) into the
raw map under the last consumed batch index, and immediately prepare and flush
every emitted collection (lines 211-215; the prepared map `batch_data` is not
involved).  `Except.error` models the crash from the source's undefined
behaviour at lines 201/208. -/
def RepartitionBatches (g : GState) (min_index : Nat) (final : Bool) :
    Except String GState :=
  if g.raw_batches = [] then .ok g
  else if final = false ∧ candidateRows g.raw_batches min_index < g.batch_size then .ok g
  else
    match repartitionCore g.batch_size final
        (g.raw_batches.takeWhile (fun p => decide (p.1 < min_index))) with
    | none => .error "null dereference of current_collection in RepartitionBatches"
    | some o =>
      .ok { g with
            raw_batches :=
              match o.reinsert with
              | none => g.raw_batches.dropWhile (fun p => decide (p.1 < min_index))
              | some kc =>
                mapSet (g.raw_batches.dropWhile (fun p => decide (p.1 < min_index))) kc.1 kc.2,
            flushed := g.flushed ++ o.emitted.map prepare_batch }

/-- The while loop of `PhysicalBatchCopyToFile::FlushBatchData` (lines
236-263), fuelled: the loop runs while `active_flush` is false, sets the flag,
and either flushes the smallest prepared entry below `min_index` (resetting
the flag and looping) or exits via `break` — leaving the flag set.  Each
recursive step removes one entry from `batch_data`, so any fuel of at least
`batch_data.length + 1` computes the loop's fixpoint. -/
def flushLoop (min_index : Nat) : Nat → GState → GState
  | 0, g => g
  | Nat.succ fuel, g =>
    if g.active_flush then g
    else
      match g.batch_data with
      | [] => { g with active_flush := true }
      | (k, v) :: rest =>
        if min_index ≤ k then { g with active_flush := true }
        else
          match v with
          | none => { g with active_flush := true }
          | some d =>
            flushLoop min_index fuel
              { g with batch_data := rest, flushed := g.flushed ++ [d],
                       active_flush := false }

/-- Embedding of `PhysicalBatchCopyToFile::FlushBatchData`. -/
def FlushBatchData (g : GState) (min_index : Nat) : GState :=
  flushLoop min_index (g.batch_data.length + 1) g

/-- Embedding of `PhysicalBatchCopyToFile::NextBatch`: when a collection is
owned (the pointer is non-null — its row count is not inspected), hand it to
the registry under the previous batch index (raw + repartition when a batch
size is set, otherwise directly prepared), then attempt a flush; finally
record the new batch index and allocate a fresh empty collection. -/
def NextBatch (g : GState) (l : LState) (newIndex minIndex : Nat) :
    Except String (GState × LState) := do
  let g2 ← match l.collection with
    | some coll =>
      if g.batch_size ≠ 0 then do
        let ga ← AddBatchData g l.batch_index coll
        let gb ← RepartitionBatches ga minIndex false
        pure (FlushBatchData gb minIndex)
      else do
        let ga ← PrepareBatchData g l.batch_index coll
        pure (FlushBatchData ga minIndex)
    | none => pure g
  pure (g2, { l with batch_index := newIndex, collection := some emptyColl })

/-- The `min_batch_index` used by `Finalize`:
`idx_t(NumericLimits<int64_t>::Maximum())`. -/
def FINAL_MIN_INDEX : Nat := 9223372036854775807

/-- Embedding of `PhysicalBatchCopyToFile::Finalize`: repartition the
remaining raw batches (final pass, relaxed watermark) when any exist, then
flush.  The trailing `copy_to_finalize` callback and temp-file rename are
external effects with no bearing on the modelled state. -/
def Finalize (g : GState) : Except String GState := do
  let g1 ← if g.raw_batches = [] then pure g
           else RepartitionBatches g FINAL_MIN_INDEX true
  pure (FlushBatchData g1 FINAL_MIN_INDEX)

/-- Embedding of `PhysicalBatchCopyToFile::GetData`: report the global row
counter. -/
def GetData (g : GState) : Nat := g.rows_copied

/-- Fold a sequence of chunks through `Sink` on one local state. -/
def sinkAll (l : LState) (chunks : List (List Row)) : LState :=
  chunks.foldl Sink l

/-- Fold a sequence of local states into the global state through `Combine`,
in the given order. -/
def combineAll (g : GState) (ls : List LState) : GState :=
  ls.foldl Combine g

/-! Concrete executions used to settle the claims that the code violates. -/

/-- A two-batch run without repartitioning (`batch_size = 0`): one producer
sinks chunk `[10]` into batch 0, transitions to batch 1 (watermark 1), sinks
chunk `[20]` into batch 1, transitions to batch 2 (watermark 2). -/
def pipelineStep1 : Except String (GState × LState) :=
  NextBatch (initGState 0) (Sink initLState [10]) 1 1

/-- Second transition of the two-batch run. -/
def pipelineStep2 : Except String (GState × LState) := do
  let (g, l) ← pipelineStep1
  NextBatch g (Sink l [20]) 2 2

/-- The two-batch run finished by `Finalize`. -/
def pipelineFinal : Except String GState := do
  let (g, _) ← pipelineStep2
  Finalize g

/-- A global state with one ready prepared batch and a clear flush flag. -/
def flagState0 : GState := { initGState 0 with batch_data := [(0, some [10])] }

/-- The state after flushing `flagState0` below watermark 1, with a new ready
batch 1 prepared afterwards.  The flush left `active_flush` set. -/
def flagStateReady : GState :=
  { FlushBatchData flagState0 1 with batch_data := [(1, some [20])] }

/-- A raw map holding a single one-row batch with desired batch size 1: the
single gathered collection is within one vector of the target, takes the
direct route, and `current_collection` is never allocated. -/
def crashState : GState := { initGState 1 with raw_batches := [(0, ⟨[[7]]⟩)] }

/-- A raw map holding one small batch (one row) with desired batch size 2050:
the collection is not within one vector of the target, so it seeds the
accumulator, and a finalize pass completes by emitting the leftover as-is. -/
def smallSeedState : GState :=
  { initGState 2050 with raw_batches := [(0, ⟨[[7]]⟩)] }

/-- A producer that transitions twice without ever sinking a row: the first
transition allocates an (empty) collection, the second hands it off. -/
def emptyHandoffStep1 : Except String (GState × LState) :=
  NextBatch (initGState 0) initLState 1 1

/-- Second batch transition of the row-less producer. -/
def emptyHandoffStep2 : Except String (GState × LState) := do
  let (g, l) ← emptyHandoffStep1
  NextBatch g l 2 2

end BatchCopy

namespace BatchCopy

/-- Claim C1: for producers submitting distinct batch indices, the sequence of
rows passed to `FlushBatch` equals the concatenation of the appended rows in
strictly increasing batch-index order, with no gaps.  The code violates this:
`FlushBatchData` leaves `active_flush` set on every exit, so after the first
flush call no later batch is ever flushed — in the two-batch run the rows
handed to `flush_batch` are `[10]`, a strict prefix of the appended
concatenation `[10, 20]`. -/
theorem claim1_flush_order_eval :
    pipelineFinal.map (fun g => g.flushed.flatten) = .ok [10] ∧
    joinedRows [⟨[[10]]⟩, ⟨[[20]]⟩] = [10, 20] ∧
    ([10] : List Row) ≠ [10, 20] :=
  ⟨rfl, rfl, by decide⟩

/-- Claim C2: after `Finalize` returns successfully, both maps are empty and
every row accepted by `Sink` has been passed to `FlushBatch` exactly once.
The code violates this: in the two-batch run `Finalize` returns successfully
while the prepared map still holds batch 1 and row `20` was never flushed
(the stale `active_flush` flag makes the finalize flush a no-op). -/
theorem claim2_finalize_drain_eval :
    pipelineFinal.map (fun g => (g.raw_batches, g.batch_data, g.flushed)) =
      .ok ([], [(1, some [20])], [[10]]) :=
  rfl

/-- Claim C4: whenever `FlushBatchData` returns, `active_flush` is false
again, so no later flush attempt is skipped because of a stale flag.  The
code violates this: every exit path of the loop is a `break` taken after
setting the flag, so the call returns with `active_flush = true`, and a
subsequent call that finds a ready prepared batch below the watermark
(`flagStateReady`, batch 1 with watermark 5) is skipped entirely. -/
theorem claim4_stale_flag_eval :
    (FlushBatchData flagState0 1).active_flush = true ∧
    flagStateReady.active_flush = true ∧
    flagStateReady.batch_data = [(1, some [20])] ∧
    FlushBatchData flagStateReady 5 = flagStateReady :=
  ⟨rfl, rfl, rfl, rfl⟩

/-- Claim C5: repartitioning preserves row order — the concatenation of the
emitted collections (plus any re-inserted leftover) equals the input rows in
batch-index order.  The code violates this on inputs where every gathered
collection takes the direct route: `current_collection` is never allocated
and line 201 dereferences a null pointer, so the pass crashes instead of
emitting.  With batch size 1, a single one-row raw batch triggers the crash
both on a normal pass and on the finalize pass. -/
theorem claim5_null_deref_eval :
    RepartitionBatches crashState 1 false =
      .error "null dereference of current_collection in RepartitionBatches" ∧
    RepartitionBatches crashState FINAL_MIN_INDEX true =
      .error "null dereference of current_collection in RepartitionBatches" :=
  ⟨rfl, rfl⟩

/-- Claim C3 counterexample: the claim says every collection emitted by a
repartition pass has its prepared form inserted into the prepared map, and
that the physical write happens only when the flush sequencer later drains
that map.  In the code the pass prepares and immediately flushes each emitted
collection itself (lines 211-215): on `smallSeedState` the completed finalize
pass has already written the emitted collection (row `7`) while the prepared
map `batch_data` is still empty — no insertion into the prepared map and no
involvement of `FlushBatchData` ever happens for repartitioned data. -/
theorem claim3_counterexample_direct_flush :
    (RepartitionBatches smallSeedState FINAL_MIN_INDEX true).map
      (fun g => (g.batch_data, g.flushed, g.raw_batches)) =
    .ok ([], [[7]], []) :=
  rfl

/-- Claim C10 counterexample: the claim says an empty (zero-row) accumulator
is never submitted and no zero-row batch is ever prepared or flushed.  The
code guards the hand-off on the collection pointer being non-null, not on its
row count: a producer that transitions twice without sinking any row submits
the empty collection allocated by the first transition, and the zero-row
batch is prepared and passed to `flush_batch`. -/
theorem claim10_counterexample_empty_submitted :
    emptyHandoffStep2.map (fun p => (p.1.flushed, p.1.batch_data)) =
      .ok ([([] : List Row)], []) :=
  rfl

/-! Supporting lemmas for the general theorems. -/

/-- A call of `FlushBatchData` on a state whose `active_flush` flag is set is
a no-op: the while condition fails immediately. -/
theorem FlushBatchData_of_active (g : GState) (min_index : Nat)
    (h : g.active_flush = true) : FlushBatchData g min_index = g := by
  unfold FlushBatchData flushLoop
  simp [h]

/-- A successful `mapLookup` witnesses membership of the key-value pair. -/
theorem mapLookup_mem {A : Type} :
    ∀ (m : List (Nat × A)) (k : Nat) (v : A),
      mapLookup m k = some v → (k, v) ∈ m := by
  intro m
  induction m with
  | nil => intro k v h; simp [mapLookup] at h
  | cons p rest ih =>
    intro k v h
    unfold mapLookup at h
    by_cases hk : k = p.1
    · simp [hk] at h
      subst h hk
      exact List.mem_cons_self _ _
    · simp [hk] at h
      exact List.mem_cons_of_mem _ (ih k v h)

/-- `std::map::insert` on a key already present leaves the map unchanged and
reports failure (for a sorted association list, as a map snapshot always is). -/
theorem mapInsert_of_lookup_some {A : Type} :
    ∀ (m : List (Nat × A)), SortedKeys m →
      ∀ (k : Nat) (v x : A), mapLookup m k = some v → mapInsert m k x = (m, false) := by
  intro m
  induction m with
  | nil => intro _ k v x h; simp [mapLookup] at h
  | cons p rest ih =>
    intro hs k v x h
    have hs' := (List.pairwise_cons.mp hs)
    unfold mapLookup at h
    by_cases hk : k = p.1
    · unfold mapInsert
      rw [if_neg (by omega), if_pos hk]
    · simp [hk] at h
      have hmem := mapLookup_mem rest k v h
      have hlt : p.1 < k := hs'.1 (k, v) hmem
      unfold mapInsert
      rw [if_neg (by omega), if_neg hk, ih hs'.2 k v x h]

/-- In a map snapshot with sorted keys, the iteration-with-break prefix scan
coincides with filtering the entries below the bound. -/
theorem takeWhile_eq_filter_of_sortedKeys {A : Type} (min_index : Nat) :
    ∀ (m : List (Nat × A)), SortedKeys m →
      m.takeWhile (fun p => decide (p.1 < min_index)) =
        m.filter (fun p => decide (p.1 < min_index)) := by
  intro m
  induction m with
  | nil => intro _; rfl
  | cons p rest ih =>
    intro hs
    have hs' := List.pairwise_cons.mp hs
    by_cases hp : p.1 < min_index
    · rw [List.takeWhile_cons_of_pos (by simpa using hp),
          List.filter_cons_of_pos (by simpa using hp), ih hs'.2]
    · rw [List.takeWhile_cons_of_neg (by simpa using hp),
          List.filter_cons_of_neg (by simpa using hp)]
      symm
      rw [List.filter_eq_nil_iff]
      intro q hq
      have : p.1 < q.1 := hs'.1 q hq
      simp
      omega

/-! Claim theorems settled by general proofs. -/

/-- Claim C3 (amended): every collection emitted by a repartition pass is
prepared and immediately flushed inside the pass itself; the prepared map
`batch_data` is never touched by repartitioning, and all the pass's writes
appear directly as new flush events. -/
theorem claim3_amended_in_pass_write (g : GState) (min_index : Nat) (final : Bool)
    (g' : GState) (h : RepartitionBatches g min_index final = .ok g') :
    g'.batch_data = g.batch_data ∧ ∃ tail, g'.flushed = g.flushed ++ tail := by
  unfold RepartitionBatches at h
  split at h
  · cases h; exact ⟨rfl, [], by simp⟩
  · split at h
    · cases h; exact ⟨rfl, [], by simp⟩
    · split at h
      · exact Except.noConfusion h
      · cases h; exact ⟨rfl, _, rfl⟩

/-- Witness for claim C3's amended theorem at a concrete input (empty raw
map: the pass returns at once, leaving the prepared map and flush log as they
were). -/
theorem claim3_amended_in_pass_write_witness :
    (initGState 0).batch_data = (initGState 0).batch_data ∧
    ∃ tail, (initGState 0).flushed = (initGState 0).flushed ++ tail :=
  claim3_amended_in_pass_write (initGState 0) 0 false (initGState 0) rfl

/-- Claim C7: when the pass is not final and the summed row count of the raw
entries below the watermark is under the target batch size, the repartitioner
returns without consuming anything: the whole global state — raw map,
prepared map, and flush log — is returned unchanged. -/
theorem claim7_starvation_guard (g : GState) (min_index : Nat)
    (hs : SortedKeys g.raw_batches)
    (h : ((g.raw_batches.filter (fun p => decide (p.1 < min_index))).map
           (fun p => p.2.count)).sum < g.batch_size) :
    RepartitionBatches g min_index false = .ok g := by
  unfold RepartitionBatches
  split
  · rfl
  · rw [if_pos]
    exact ⟨rfl, by
      unfold candidateRows
      rw [takeWhile_eq_filter_of_sortedKeys min_index g.raw_batches hs]
      exact h⟩

/-- Witness for claim C7: fifty candidate rows, batch size one thousand —
nothing is consumed. -/
theorem claim7_starvation_guard_witness :
    RepartitionBatches
      { initGState 1000 with raw_batches := [(0, ⟨[List.replicate 50 3]⟩)] } 5 false =
    .ok { initGState 1000 with raw_batches := [(0, ⟨[List.replicate 50 3]⟩)] } :=
  claim7_starvation_guard _ 5 (by simp [SortedKeys]) (by decide)

/-- Claim C9: submitting a batch index already present in the raw map
(`AddBatchData`) or in the prepared map (`PrepareBatchData`) deterministically
raises the duplicate-batch-index error, and the attempted map insertion
leaves the stored entry (indeed the whole map) unchanged. -/
theorem claim9_duplicate_batch_index (g : GState) (k1 k2 : Nat) (v1 : Coll)
    (v2 : Option (List Row)) (c1 c2 : Coll)
    (hs1 : SortedKeys g.raw_batches) (hs2 : SortedKeys g.batch_data)
    (h1 : mapLookup g.raw_batches k1 = some v1)
    (h2 : mapLookup g.batch_data k2 = some v2) :
    AddBatchData g k1 c1 =
      .error "Duplicate batch index encountered in PhysicalBatchCopyToFile" ∧
    (mapInsert g.raw_batches k1 c1).1 = g.raw_batches ∧
    PrepareBatchData g k2 c2 =
      .error "Duplicate batch index encountered in PhysicalBatchCopyToFile" ∧
    (mapInsert g.batch_data k2 (some (prepare_batch c2))).1 = g.batch_data := by
  have e1 := mapInsert_of_lookup_some g.raw_batches hs1 k1 v1 c1 h1
  have e2 := mapInsert_of_lookup_some g.batch_data hs2 k2 v2 (some (prepare_batch c2)) h2
  refine ⟨?_, ?_, ?_, ?_⟩
  · simp [AddBatchData, e1]
  · rw [e1]
  · simp [PrepareBatchData, e2]
  · rw [e2]

/-- Witness for claim C9 at a concrete state holding batch 2 raw and batch 5
prepared. -/
theorem claim9_duplicate_batch_index_witness :
    AddBatchData
        { initGState 0 with raw_batches := [(2, ⟨[[9]]⟩)], batch_data := [(5, some [1])] }
        2 ⟨[[4]]⟩ =
      .error "Duplicate batch index encountered in PhysicalBatchCopyToFile" ∧
    (mapInsert [(2, (⟨[[9]]⟩ : Coll))] 2 (⟨[[4]]⟩ : Coll)).1 = [(2, ⟨[[9]]⟩)] ∧
    PrepareBatchData
        { initGState 0 with raw_batches := [(2, ⟨[[9]]⟩)], batch_data := [(5, some [1])] }
        5 ⟨[[4]]⟩ =
      .error "Duplicate batch index encountered in PhysicalBatchCopyToFile" ∧
    (mapInsert [(5, some [1])] 5 (some (prepare_batch ⟨[[4]]⟩))).1 = [(5, some [1])] :=
  claim9_duplicate_batch_index _ 2 5 ⟨[[9]]⟩ (some [1]) ⟨[[4]]⟩ ⟨[[4]]⟩
    (by simp [SortedKeys]) (by simp [SortedKeys]) rfl rfl

/-! Lemmas about collections and the repartition loop. -/

/-- Appending a chunk grows the count by the chunk's length. -/
theorem Coll.count_appendChunk (c : Coll) (ch : List Row) :
    (c.appendChunk ch).count = c.count + ch.length := by
  simp [Coll.appendChunk, Coll.count]

/-- Appending a chunk appends its rows. -/
theorem Coll.rows_appendChunk (c : Coll) (ch : List Row) :
    (c.appendChunk ch).rows = c.rows ++ ch := by
  simp [Coll.appendChunk, Coll.rows]

/-- The length of a collection's row list is its count. -/
theorem Coll.length_rows (c : Coll) : c.rows.length = c.count := by
  simp [Coll.rows, Coll.count, List.length_flatten]

/-- A zero-count collection has no rows. -/
theorem Coll.rows_eq_nil_of_count_zero (c : Coll) (h : c.count = 0) : c.rows = [] := by
  have hl := Coll.length_rows c
  rw [h] at hl
  exact List.length_eq_zero.mp hl

/-- The empty collection has count zero. -/
theorem emptyColl_count : emptyColl.count = 0 := rfl

/-- Arithmetic form of `CorrectSizeForBatch` when the size is at least the
target. -/
theorem correctSize_of_le (B c : Nat) (h1 : B ≤ c) (h2 : c < B + STANDARD_VECTOR_SIZE) :
    CorrectSizeForBatch c B = true := by
  simp only [CorrectSizeForBatch, decide_eq_true_eq]
  omega

/-- Invariants of the inner chunk loop: given well-formed chunks, an
accumulator below the batch size, and previously emitted collections all of a
correct size, the loop returns an accumulator below the batch size and emits
only correct-size collections. -/
theorem chunkLoop_spec (B : Nat) (hB : 0 < B) :
    ∀ (chunks : List (List Row)) (cur : Coll) (result : List Coll),
      (∀ ch ∈ chunks, ch.length ≤ STANDARD_VECTOR_SIZE) →
      cur.count < B →
      (∀ r ∈ result, CorrectSizeForBatch r.count B = true) →
      (chunkLoop B cur result chunks).1.count < B ∧
      (∀ r ∈ (chunkLoop B cur result chunks).2, CorrectSizeForBatch r.count B = true) := by
  intro chunks
  induction chunks with
  | nil => intro cur res _ hcur hres; exact ⟨hcur, hres⟩
  | cons ch rest ih =>
    intro cur res hwf hcur hres
    unfold chunkLoop
    split
    next hlt =>
      exact ih (cur.appendChunk ch) res (fun x hx => hwf x (List.mem_cons_of_mem _ hx)) hlt hres
    next hge =>
      apply ih emptyColl (res ++ [cur.appendChunk ch])
        (fun x hx => hwf x (List.mem_cons_of_mem _ hx))
        (by rw [emptyColl_count]; exact hB)
      intro r hr
      rcases List.mem_append.mp hr with h | h
      · exact hres r h
      · rw [List.mem_singleton.mp h]
        have hch : ch.length ≤ STANDARD_VECTOR_SIZE := hwf ch (List.mem_cons_self _ _)
        rw [Coll.count_appendChunk] at hge ⊢
        exact correctSize_of_le B _ (by omega) (by omega)

/-- Invariants of one outer-loop iteration on a single gathered collection. -/
theorem processColl_spec (B : Nat) (hB : 0 < B) (cur : Option Coll)
    (result : List Coll) (coll : Coll) (hwf : WFColl coll)
    (hcur : ∀ c, cur = some c → c.count < B)
    (hres : ∀ r ∈ result, CorrectSizeForBatch r.count B = true) :
    (∀ c, (processColl B cur result coll).1 = some c → c.count < B) ∧
    (∀ r ∈ (processColl B cur result coll).2, CorrectSizeForBatch r.count B = true) := by
  cases cur with
  | none =>
    simp only [processColl]
    split
    next hok =>
      refine ⟨fun c hc => Option.noConfusion hc, fun r hr => ?_⟩
      rcases List.mem_append.mp hr with h | h
      · exact hres r h
      · rw [List.mem_singleton.mp h]; exact hok
    next hnot =>
      split
      next hsmall =>
        exact ⟨fun c hc => by rw [← Option.some.inj hc]; exact hsmall, hres⟩
      next hbig =>
        have hcl := chunkLoop_spec B hB coll.chunks emptyColl result hwf
          (by rw [emptyColl_count]; exact hB) hres
        exact ⟨fun c hc => by rw [← Option.some.inj hc]; exact hcl.1, hcl.2⟩
  | some c0 =>
    simp only [processColl]
    have hcl := chunkLoop_spec B hB coll.chunks c0 result hwf (hcur c0 rfl) hres
    exact ⟨fun c hc => by rw [← Option.some.inj hc]; exact hcl.1, hcl.2⟩

/-- Invariants of the full repartition loop over the gathered collections. -/
theorem repartitionLoop_spec (B : Nat) (hB : 0 < B) :
    ∀ (colls : List Coll) (acc : Option Coll × List Coll),
      (∀ c ∈ colls, WFColl c) →
      (∀ c, acc.1 = some c → c.count < B) →
      (∀ r ∈ acc.2, CorrectSizeForBatch r.count B = true) →
      (∀ c, (colls.foldl (fun a coll => processColl B a.1 a.2 coll) acc).1 = some c →
         c.count < B) ∧
      (∀ r ∈ (colls.foldl (fun a coll => processColl B a.1 a.2 coll) acc).2,
         CorrectSizeForBatch r.count B = true) := by
  intro colls
  induction colls with
  | nil => intro acc _ hcur hres; exact ⟨hcur, hres⟩
  | cons coll rest ih =>
    intro acc hwf hcur hres
    have hstep := processColl_spec B hB acc.1 acc.2 coll
      (hwf coll (List.mem_cons_self _ _)) hcur hres
    simpa using ih (processColl B acc.1 acc.2 coll)
      (fun c hc => hwf c (List.mem_cons_of_mem _ hc)) hstep.1 hstep.2

/-- Properties of a reinsert outcome that follow from the branch structure of
`repartitionCore` alone, with no well-formedness hypotheses. -/
theorem repartitionCore_reinsert_props (B : Nat) (final : Bool)
    (gathered : List (Nat × Coll)) (o : RepartOutcome)
    (h : repartitionCore B final gathered = some o) :
    ∀ k c, o.reinsert = some (k, c) →
      0 < c.count ∧ CorrectSizeForBatch c.count B = false ∧
      (gathered.map Prod.fst).getLast? = some k ∧ final = false := by
  intro k c hre
  unfold repartitionCore at h
  split at h
  · exact Option.noConfusion h
  next c0 result heq =>
    split at h
    next hpos =>
      split at h
      next hcorrect =>
        cases h
        exact Option.noConfusion hre
      next hnc =>
        split at h
        next mbi hlast =>
          cases h
          simp only [RepartOutcome.reinsert, Option.some.injEq, Prod.mk.injEq] at hre
          obtain ⟨hk, hc⟩ := hre
          subst hk hc
          push_neg at hnc
          exact ⟨hpos, Bool.eq_false_iff.mpr hnc.2, hlast, Bool.eq_false_iff.mpr hnc.1⟩
        · exact Option.noConfusion h
    next hz =>
      cases h
      exact Option.noConfusion hre

/-- The repartition loop, started as `RepartitionBatches` starts it (no
accumulator, no results), keeps the accumulator below the batch size and
emits only correct-size collections. -/
theorem repartitionLoop_closed_spec (B : Nat) (hB : 0 < B) (colls : List Coll)
    (hwf : ∀ c ∈ colls, WFColl c) :
    (∀ c, (repartitionLoop B colls).1 = some c → c.count < B) ∧
    (∀ r ∈ (repartitionLoop B colls).2, CorrectSizeForBatch r.count B = true) :=
  repartitionLoop_spec B hB colls (none, []) hwf (fun _ hc => Option.noConfusion hc)
    (fun r hr => absurd hr (List.not_mem_nil r))

/-- Claim C6: in a non-final repartition pass with positive target batch size
`B`, every collection emitted for preparation has a row count within one
vector width (`STANDARD_VECTOR_SIZE`) of `B`; a non-empty leftover
accumulator outside that tolerance is not emitted but re-inserted under the
last consumed batch index; at finalize the leftover is emitted as-is (nothing
is re-inserted).  Conjuncts 1-3 state this over the pass algorithm
`repartitionCore`; conjunct 4 states the exact effect of a successful
non-final `RepartitionBatches` call: it either skips, or flushes exactly the
emitted collections and stores the re-inserted leftover in the raw map. -/
theorem claim6_repartition_sizing (B min_index : Nat) (final : Bool)
    (gathered : List (Nat × Coll)) (o : RepartOutcome)
    (hB : 0 < B) (hwf : ∀ p ∈ gathered, WFColl p.2)
    (hcore : repartitionCore B final gathered = some o) :
    (final = false → ∀ c ∈ o.emitted, CorrectSizeForBatch c.count B = true) ∧
    (∀ k c, o.reinsert = some (k, c) →
       0 < c.count ∧ CorrectSizeForBatch c.count B = false ∧ c.count < B ∧
       (gathered.map Prod.fst).getLast? = some k ∧ final = false) ∧
    (final = true → o.reinsert = none) ∧
    (∀ g g' : GState, RepartitionBatches g min_index false = .ok g' →
       g' = g ∨
       ∃ o2, repartitionCore g.batch_size false
           (g.raw_batches.takeWhile (fun p => decide (p.1 < min_index))) = some o2 ∧
         g'.flushed = g.flushed ++ o2.emitted.map prepare_batch ∧
         g'.raw_batches =
           (match o2.reinsert with
            | none => g.raw_batches.dropWhile (fun p => decide (p.1 < min_index))
            | some kc =>
              mapSet (g.raw_batches.dropWhile (fun p => decide (p.1 < min_index)))
                kc.1 kc.2)) := by
  have hwf2 : ∀ c ∈ gathered.map Prod.snd, WFColl c := by
    intro c hc
    obtain ⟨p, hp, hpe⟩ := List.mem_map.mp hc
    rw [← hpe]
    exact hwf p hp
  have hloop := repartitionLoop_closed_spec B hB (gathered.map Prod.snd) hwf2
  refine ⟨?_, ?_, ?_, ?_⟩
  · intro hfinal c hc
    unfold repartitionCore at hcore
    split at hcore
    · exact Option.noConfusion hcore
    next c0 result heq =>
      rw [heq] at hloop
      split at hcore
      next hpos =>
        split at hcore
        next hcor =>
          cases hcore
          rcases List.mem_append.mp hc with h | h
          · exact hloop.2 c h
          · rw [List.mem_singleton.mp h]
            rcases hcor with hf | hcs
            · rw [hfinal] at hf; exact Bool.noConfusion hf
            · exact hcs
        next hnc =>
          split at hcore
          · cases hcore
            exact hloop.2 c hc
          · exact Option.noConfusion hcore
      next hz =>
        cases hcore
        exact hloop.2 c hc
  · intro k c hre
    have hprops := repartitionCore_reinsert_props B final gathered o hcore k c hre
    refine ⟨hprops.1, hprops.2.1, ?_, hprops.2.2.1, hprops.2.2.2⟩
    unfold repartitionCore at hcore
    split at hcore
    · exact Option.noConfusion hcore
    next c0 result heq =>
      rw [heq] at hloop
      split at hcore
      next hpos =>
        split at hcore
        next hcor =>
          cases hcore
          exact Option.noConfusion hre
        next hnc =>
          split at hcore
          next mbi hlast =>
            cases hcore
            simp only [RepartOutcome.reinsert, Option.some.injEq, Prod.mk.injEq] at hre
            rw [← hre.2]
            exact hloop.1 c0 rfl
          · exact Option.noConfusion hcore
      next hz =>
        cases hcore
        exact Option.noConfusion hre
  · intro hfinal
    unfold repartitionCore at hcore
    split at hcore
    · exact Option.noConfusion hcore
    next c0 result heq =>
      split at hcore
      next hpos =>
        split at hcore
        next hcor =>
          cases hcore
          rfl
        next hnc =>
          exact absurd (Or.inl hfinal) hnc
      next hz =>
        cases hcore
        rfl
  · intro g g' hok
    unfold RepartitionBatches at hok
    split at hok
    · cases hok
      exact Or.inl rfl
    · split at hok
      · cases hok
        exact Or.inl rfl
      · split at hok
        · exact Except.noConfusion hok
        next o2 heq2 =>
          cases hok
          exact Or.inr ⟨o2, heq2, rfl, rfl⟩

/-- Witness for claim C6: batch size 2049, one gathered one-row batch.  The
row count 1 is outside the tolerance (2048 away from the target), so the pass
seeds the accumulator with it, emits nothing, and re-inserts the leftover
under batch index 0 — the last (and only) consumed index. -/
theorem claim6_repartition_sizing_witness :
    0 < Coll.count ⟨[[7]]⟩ ∧
    CorrectSizeForBatch (Coll.count ⟨[[7]]⟩) 2049 = false ∧
    Coll.count ⟨[[7]]⟩ < 2049 ∧
    (([(0, (⟨[[7]]⟩ : Coll))].map Prod.fst).getLast? = some 0) ∧ false = false :=
  (claim6_repartition_sizing 2049 5 false [(0, ⟨[[7]]⟩)]
      { emitted := [], reinsert := some (0, ⟨[[7]]⟩) }
      (by decide) (by intro p hp; rw [List.mem_singleton.mp hp]; intro ch hch;
                      rw [List.mem_singleton.mp hch]; decide) rfl).2.1
    0 ⟨[[7]]⟩ rfl

/-- Claim C10 (amended): `NextBatch` hands the local collection to the
registry exactly when one is owned (the pointer is non-null), regardless of
its row count: a zero-row collection left over from a previous batch
transition is submitted, prepared and flushed like any other; only when no
collection has been allocated yet (before the first `Sink`) is the hand-off
skipped and the global state untouched. -/
theorem claim10_amended_pointer_guard :
    (∀ (g : GState) (l : LState) (n m : Nat), l.collection = none →
       NextBatch g l n m =
         .ok (g, { l with batch_index := n, collection := some emptyColl })) ∧
    (∀ (g : GState) (l : LState) (n m : Nat) (c : Coll), l.collection = some c →
       g.batch_size = 0 → g.active_flush = true →
       (mapInsert g.batch_data l.batch_index (some (prepare_batch c))).2 = true →
       NextBatch g l n m =
         .ok ({ g with batch_data :=
                  (mapInsert g.batch_data l.batch_index (some (prepare_batch c))).1 },
              { l with batch_index := n, collection := some emptyColl })) := by
  constructor
  · intro g l n m hnone
    simp [NextBatch, hnone]
    rfl
  · intro g l n m c hsome hbs hflag hfresh
    have hga : PrepareBatchData g l.batch_index c =
        .ok { g with batch_data :=
                (mapInsert g.batch_data l.batch_index (some (prepare_batch c))).1 } := by
      simp [PrepareBatchData, hfresh]
    simp [NextBatch, hsome, hbs, hga]
    exact FlushBatchData_of_active _ m hflag

/-- Witness for claim C10's amended theorem: the first transition of a fresh
producer performs no hand-off; a producer owning an empty collection submits
its zero rows to the prepared map. -/
theorem claim10_amended_pointer_guard_witness :
    NextBatch (initGState 0) initLState 1 1 =
      .ok (initGState 0, { initLState with batch_index := 1, collection := some emptyColl }) ∧
    NextBatch { initGState 0 with active_flush := true }
        { collection := some emptyColl, rows_copied := 0, batch_index := 3 } 4 0 =
      .ok ({ { initGState 0 with active_flush := true } with
              batch_data := (mapInsert ([] : List (Nat × Option (List Row))) 3
                (some (prepare_batch emptyColl))).1 },
           { collection := some emptyColl, rows_copied := 0, batch_index := 4 }) :=
  ⟨claim10_amended_pointer_guard.1 (initGState 0) initLState 1 1 rfl,
   claim10_amended_pointer_guard.2 { initGState 0 with active_flush := true }
     { collection := some emptyColl, rows_copied := 0, batch_index := 3 } 4 0
     emptyColl rfl rfl rfl rfl⟩

/-! Count conservation (claim C8). -/

/-- `Sink` adds the chunk lengths to the local row counter. -/
theorem sinkAll_rows_copied (cs : List (List Row)) :
    ∀ l : LState, (sinkAll l cs).rows_copied = l.rows_copied + (cs.map List.length).sum := by
  induction cs with
  | nil => intro l; simp [sinkAll]
  | cons c rest ih =>
    intro l
    have : sinkAll l (c :: rest) = sinkAll (Sink l c) rest := rfl
    rw [this, ih (Sink l c)]
    simp [Sink]
    omega

/-- `Combine` accumulates the local counters into the global one, in any
order. -/
theorem combineAll_rows_copied (ls : List LState) :
    ∀ g : GState, (combineAll g ls).rows_copied =
      g.rows_copied + (ls.map LState.rows_copied).sum := by
  induction ls with
  | nil => intro g; simp [combineAll]
  | cons l rest ih =>
    intro g
    have : combineAll g (l :: rest) = combineAll (Combine g l) rest := rfl
    rw [this, ih (Combine g l)]
    simp [Combine]
    omega

/-- The flush loop never touches the global row counter. -/
theorem flushLoop_rows_copied (min_index : Nat) :
    ∀ (fuel : Nat) (g : GState), (flushLoop min_index fuel g).rows_copied = g.rows_copied := by
  intro fuel
  induction fuel with
  | zero => intro g; rfl
  | succ fuel ih =>
    intro g
    unfold flushLoop
    split
    · rfl
    · split
      · rfl
      · split
        · rfl
        · split
          · rfl
          · rw [ih]

/-- `FlushBatchData` never touches the global row counter. -/
theorem FlushBatchData_rows_copied (g : GState) (min_index : Nat) :
    (FlushBatchData g min_index).rows_copied = g.rows_copied :=
  flushLoop_rows_copied min_index (g.batch_data.length + 1) g

/-- A successful repartition pass never touches the global row counter. -/
theorem RepartitionBatches_rows_copied (g : GState) (min_index : Nat) (final : Bool)
    (g' : GState) (h : RepartitionBatches g min_index final = .ok g') :
    g'.rows_copied = g.rows_copied := by
  unfold RepartitionBatches at h
  split at h
  · cases h; rfl
  · split at h
    · cases h; rfl
    · split at h
      · exact Except.noConfusion h
      · cases h; rfl

/-- A successful `Finalize` never touches the global row counter. -/
theorem Finalize_rows_copied (g g' : GState) (h : Finalize g = .ok g') :
    g'.rows_copied = g.rows_copied := by
  unfold Finalize at h
  split at h
  · have : g' = FlushBatchData g FINAL_MIN_INDEX := by
      exact (Except.ok.inj h).symm
    rw [this, FlushBatchData_rows_copied]
  · cases hrep : RepartitionBatches g FINAL_MIN_INDEX true with
    | error e =>
      rw [hrep] at h
      exact Except.noConfusion h
    | ok g1 =>
      rw [hrep] at h
      have : g' = FlushBatchData g1 FINAL_MIN_INDEX := (Except.ok.inj h).symm
      rw [this, FlushBatchData_rows_copied]
      exact RepartitionBatches_rows_copied g FINAL_MIN_INDEX true g1 hrep

/-- Claim C8: the row count reported by `GetData` after combining all local
states into the global state equals the sum of the sizes of all chunks passed
to `Sink`, for any order in which the local states are combined; and a
successful `Finalize` leaves that counter untouched, so the value reported
after finalization is the same sum. -/
theorem claim8_count_conservation (batchSize : Nat)
    (chunkss order : List (List (List Row))) (hperm : chunkss.Perm order) :
    GetData (combineAll (initGState batchSize)
        (order.map (fun cs => sinkAll initLState cs))) =
      (chunkss.map (fun cs => (cs.map List.length).sum)).sum ∧
    (∀ g g' : GState, Finalize g = .ok g' → GetData g' = GetData g) := by
  constructor
  · show (combineAll (initGState batchSize)
        (order.map (fun cs => sinkAll initLState cs))).rows_copied = _
    rw [combineAll_rows_copied]
    have hzero : (initGState batchSize).rows_copied = 0 := rfl
    rw [hzero, Nat.zero_add, List.map_map]
    have hfun : (LState.rows_copied ∘ fun cs => sinkAll initLState cs) =
        fun cs => (cs.map List.length).sum := by
      funext cs
      show (sinkAll initLState cs).rows_copied = _
      rw [sinkAll_rows_copied]
      show 0 + (List.map List.length cs).sum = _
      rw [Nat.zero_add]
    rw [hfun]
    exact ((hperm.map _).sum_eq).symm
  · intro g g' h
    exact Finalize_rows_copied g g' h

/-- Witness for claim C8: two producers, chunks of sizes 2+1 and 1, combined
in reversed order, report 4 rows. -/
theorem claim8_count_conservation_witness :
    GetData (combineAll (initGState 0)
        ([[[4]], [[1, 2], [3]]].map (fun cs => sinkAll initLState cs))) =
      ([[[1, 2], [3]], [[4]]].map (fun cs => (cs.map List.length).sum)).sum :=
  (claim8_count_conservation 0 [[[1, 2], [3]], [[4]]] [[[4]], [[1, 2], [3]]]
    (by decide)).1

/-! Row-order preservation of the repartition loop.  This is the intended
property behind claim C5; the pass itself can crash (see
`claim5_null_deref_eval`), but whenever it completes, the rows it emits —
followed by the rows of the re-inserted leftover — are exactly the gathered
rows in batch-index order. -/

/-- Rows through the inner chunk loop: the emitted rows followed by the
accumulator's rows extend the incoming state by exactly the appended chunks. -/
theorem chunkLoop_rows (B : Nat) :
    ∀ (chunks : List (List Row)) (cur : Coll) (result : List Coll),
      joinedRows (chunkLoop B cur result chunks).2 ++
          (chunkLoop B cur result chunks).1.rows =
        joinedRows result ++ cur.rows ++ chunks.flatten := by
  intro chunks
  induction chunks with
  | nil => intro cur res; simp [chunkLoop]
  | cons ch rest ih =>
    intro cur res
    unfold chunkLoop
    split
    · rw [ih, Coll.rows_appendChunk]
      simp [List.append_assoc]
    · rw [ih]
      simp [joinedRows, Coll.rows, Coll.appendChunk, emptyColl,
        List.flatten_append, List.append_assoc]

/-- Rows through one outer-loop iteration. -/
theorem processColl_rows (B : Nat) (cur : Option Coll) (result : List Coll)
    (coll : Coll) :
    joinedRows (processColl B cur result coll).2 ++
        ((processColl B cur result coll).1.elim [] Coll.rows) =
      joinedRows result ++ (cur.elim [] Coll.rows) ++ coll.rows := by
  cases cur with
  | none =>
    simp only [processColl]
    split
    · simp [joinedRows]
    · split
      · simp [joinedRows]
      · have hcl := chunkLoop_rows B coll.chunks emptyColl result
        simp only [Option.elim]
        rw [hcl]
        simp [emptyColl, Coll.rows]
  | some c0 =>
    simp only [processColl]
    have hcl := chunkLoop_rows B coll.chunks c0 result
    simp only [Option.elim]
    rw [hcl]
    simp [Coll.rows]

/-- Rows through the full repartition loop. -/
theorem repartitionLoop_rows (B : Nat) :
    ∀ (colls : List Coll) (acc : Option Coll × List Coll),
      joinedRows (colls.foldl (fun a coll => processColl B a.1 a.2 coll) acc).2 ++
          ((colls.foldl (fun a coll => processColl B a.1 a.2 coll) acc).1.elim
            [] Coll.rows) =
        joinedRows acc.2 ++ (acc.1.elim [] Coll.rows) ++ joinedRows colls := by
  intro colls
  induction colls with
  | nil => intro acc; simp [joinedRows]
  | cons coll rest ih =>
    intro acc
    have hstep : (coll :: rest).foldl (fun a c => processColl B a.1 a.2 c) acc =
        rest.foldl (fun a c => processColl B a.1 a.2 c) (processColl B acc.1 acc.2 coll) := rfl
    rw [hstep, ih (processColl B acc.1 acc.2 coll), processColl_rows]
    simp [joinedRows, List.append_assoc]

/-- Row-order preservation of a completed repartition pass: the concatenated
rows of the emitted collections, followed by the rows of the re-inserted
leftover (if any), equal the concatenated rows of the gathered collections in
batch-index order. -/
theorem repartitionCore_preserves_rows (B : Nat) (final : Bool)
    (gathered : List (Nat × Coll)) (o : RepartOutcome)
    (h : repartitionCore B final gathered = some o) :
    joinedRows o.emitted ++ (o.reinsert.elim [] (fun kc => kc.2.rows)) =
      joinedRows (gathered.map Prod.snd) := by
  have hrows := repartitionLoop_rows B (gathered.map Prod.snd) (none, [])
  unfold repartitionCore at h
  split at h
  · exact Option.noConfusion h
  next c0 result heq =>
    rw [show (gathered.map Prod.snd).foldl (fun a coll => processColl B a.1 a.2 coll) (none, []) =
          repartitionLoop B (gathered.map Prod.snd) from rfl, heq] at hrows
    simp only [Option.elim] at hrows
    simp only [joinedRows, List.map_nil, List.flatten_nil, List.nil_append] at hrows
    split at h
    next hpos =>
      split at h
      next hcor =>
        cases h
        simp only [RepartOutcome.emitted, RepartOutcome.reinsert, Option.elim]
        rw [joinedRows, List.map_append, List.flatten_append]
        simp [joinedRows, hrows]
      next hnc =>
        split at h
        next mbi hlast =>
          cases h
          simpa [joinedRows, List.map_map] using hrows
        · exact Option.noConfusion h
    next hz =>
      cases h
      have hc0 : c0.rows = [] :=
        Coll.rows_eq_nil_of_count_zero c0 (by omega)
      simp only [RepartOutcome.emitted, RepartOutcome.reinsert, Option.elim]
      rw [hc0] at hrows
      simpa [joinedRows, List.map_map] using hrows

/-- Witness for `repartitionCore_preserves_rows` at a concrete completed
pass: one small batch seeds the accumulator and is re-inserted whole. -/
theorem repartitionCore_preserves_rows_witness :
    joinedRows (RepartOutcome.emitted { emitted := [], reinsert := some (0, (⟨[[7]]⟩ : Coll)) }) ++
      ((RepartOutcome.reinsert { emitted := [], reinsert := some (0, (⟨[[7]]⟩ : Coll)) }).elim
        [] (fun kc => kc.2.rows)) =
    joinedRows ([(0, (⟨[[7]]⟩ : Coll))].map Prod.snd) :=
  repartitionCore_preserves_rows 2049 false [(0, ⟨[[7]]⟩)]
    { emitted := [], reinsert := some (0, ⟨[[7]]⟩) } rfl

end BatchCopy
